import Mathlib

/-!
Shallow embedding of the receipts_processor service (src/main.go) and
verification of its specification claims.

The Go program stores receipts in a map keyed by generated identifiers and
scores them with seven additive rules (`calculatePoints`).  The rules parse
the textual `total`, `price`, `purchaseDate` and `purchaseTime` fields with
`strconv.ParseFloat` and `time.Parse`, ignoring the returned errors, and mix
float64 arithmetic with truncating float-to-int conversions.

float64 values are modelled as exact rationals produced by correct rounding
(round to nearest, ties to even, 53-bit significand, unbounded exponent:
overflow to infinity, subnormal rounding and NaN are not modelled).  To keep
every definition kernel-computable we represent rationals as unreduced
`num/den` pairs (`Frac`, denominators kept positive) and compare by
cross-multiplication; `toQ` interprets a `Frac` in `ℚ` for the lemmas.
-/

/-- Unreduced fraction with value `num / den`.  Every constructor used in the
embedding keeps `den` positive. -/
structure Frac where
  num : ℤ
  den : ℕ
  deriving DecidableEq, Repr

/-- Interpretation of a `Frac` as a rational number. -/
def toQ (f : Frac) : ℚ := (f.num : ℚ) / (f.den : ℚ)

/-- Number of binary digits of `n`, with explicit fuel so that the recursion is
structural (hence kernel-reducible).  `bitLenAux f n` is correct when `n ≤ f`. -/
def bitLenAux : ℕ → ℕ → ℕ
  | _, 0 => 0
  | 0, _ + 1 => 0
  | f + 1, n + 1 => bitLenAux f ((n + 1) / 2) + 1

/-- Number of binary digits of `n` (`0` for `0`); `2 ^ (bitLen n - 1) ≤ n < 2 ^ bitLen n`. -/
def bitLen (n : ℕ) : ℕ := bitLenAux n n

/-- Multiply a fraction by an integer power of two, keeping `den` positive. -/
def mul2z (q : Frac) (k : ℤ) : Frac :=
  match k with
  | Int.ofNat n => ⟨q.num * 2 ^ n, q.den⟩
  | Int.negSucc n => ⟨q.num, q.den * 2 ^ (n + 1)⟩

/-- The fraction `2 ^ k`. -/
def pow2f (k : ℤ) : Frac := mul2z ⟨1, 1⟩ k

/-- Strict order on fractions by cross-multiplication (valid for positive dens). -/
def fracLt (a b : Frac) : Bool := a.num * (b.den : ℤ) < b.num * (a.den : ℤ)

/-- Equality of fraction values by cross-multiplication (valid for positive dens). -/
def fracEq (a b : Frac) : Bool := a.num * (b.den : ℤ) = b.num * (a.den : ℤ)

/-- Product of two fractions. -/
def fmul (a b : Frac) : Frac := ⟨a.num * b.num, a.den * b.den⟩

/-- Negation of a fraction. -/
def fneg (a : Frac) : Frac := ⟨-a.num, a.den⟩

/-- Round a fraction (with positive den) to the nearest integer, ties to even.
`f` is the floor; the fractional part `r = m - f` is compared with `1/2` by
cross-multiplication: `r < 1/2 ↔ 2*(num - f*den) < den`. -/
def rndNE (m : Frac) : ℤ :=
  let f := Int.fdiv m.num m.den
  let r2 := 2 * (m.num - f * (m.den : ℤ))
  if r2 < (m.den : ℤ) then f
  else if (m.den : ℤ) < r2 then f + 1
  else if Int.emod f 2 = 0 then f else f + 1

/-- Binary exponent of a positive fraction: the unique `E` with
`2 ^ (E-1) ≤ q < 2 ^ E`, computed from the bit lengths of `num` and `den`. -/
def ratBitExp (q : Frac) : ℤ :=
  let b : ℤ := (bitLen q.num.natAbs : ℤ) - (bitLen q.den : ℤ)
  if fracLt q (pow2f b) then b else b + 1

/-- Correctly round a positive fraction to 53 significant bits
(round to nearest, ties to even). -/
def floatRoundPos (q : Frac) : Frac :=
  let e := ratBitExp q - 53
  mul2z ⟨rndNE (mul2z q (-e)), 1⟩ e

/-- Correctly round a fraction to the nearest float64 value: 53-bit
significand with unbounded exponent.  Faithful for finite values of
magnitude below 2^1024 and at or above the subnormal threshold 2^-1022;
values beyond the float64 maximum would overflow to infinity in Go
(`ParseFloat` then returns Inf with a discarded range error), which no
rational represents, so theorems that rely on the rounding restrict their
inputs well inside that range. -/
def floatRound (q : Frac) : Frac :=
  if q.num = 0 then ⟨0, 1⟩
  else if 0 < q.num then floatRoundPos q
  else fneg (floatRoundPos (fneg q))

/-- Go conversion `int(x)` of a float64 value: truncation toward zero
(`Int.tdiv` truncates toward zero, as Go division does).  Faithful exactly
for values whose truncation is representable in int64 (|x| < 2^63); outside
that range — including NaN and the infinities — the Go specification leaves
the converted value implementation-dependent (the standard gc toolchain
yields the most negative int64), and this exact truncation does not model
it.  Theorems whose conclusion depends on the conversion therefore confine
their hypotheses to the in-range domain (see `priceOk` and
`rule5_arg_bound`). -/
def goInt (q : Frac) : ℤ := Int.tdiv q.num q.den

/-- Go integer remainder `a % b` (sign of the dividend). -/
def goMod (a b : ℤ) : ℤ := Int.tmod a b

/-! ## String parsing models

`strconv.ParseFloat` is modelled for plain decimal literals
(optional sign, digits with optional fraction part, optional decimal
exponent).  Go additionally accepts `inf`/`nan`, hexadecimal floats and
digit-group underscores; none of these occur in the repository's data model
of monetary amounts and they are not modelled.  On any syntax error the Go
code ignores the error and `ParseFloat` returns `0`. -/

/-- Decimal digit test. -/
def isDigit (c : Char) : Bool := 48 ≤ c.toNat && c.toNat ≤ 57

/-- Consume leading digits: returns (accumulated value, digit count, rest). -/
def takeDigits : List Char → ℕ → ℕ → ℕ × ℕ × List Char
  | [], acc, cnt => (acc, cnt, [])
  | c :: cs, acc, cnt =>
    if isDigit c then takeDigits cs (10 * acc + (c.toNat - 48)) (cnt + 1)
    else (acc, cnt, c :: cs)

/-- Optional sign: returns (isNegative, rest). -/
def takeSign : List Char → Bool × List Char
  | '+' :: cs => (false, cs)
  | '-' :: cs => (true, cs)
  | cs => (false, cs)

/-- Parse the optional exponent part `((e|E) sign? digits)?`; the whole rest
must be consumed.  Returns the (signed) decimal exponent. -/
def parseExpPart : List Char → Option ℤ
  | [] => some 0
  | 'e' :: cs =>
    let (eneg, cs1) := takeSign cs
    let (ev, ec, cs2) := takeDigits cs1 0 0
    if ec = 0 then none
    else if cs2 = [] then some (if eneg then -(ev : ℤ) else (ev : ℤ))
    else none
  | 'E' :: cs =>
    let (eneg, cs1) := takeSign cs
    let (ev, ec, cs2) := takeDigits cs1 0 0
    if ec = 0 then none
    else if cs2 = [] then some (if eneg then -(ev : ℤ) else (ev : ℤ))
    else none
  | _ => none

/-- Combine sign, mantissa digits, decimal scale and exponent part into the
exact value of a decimal literal (`mant / 10 ^ scale`, scaled by the
exponent), as a `Frac` whose den is a positive power of ten. -/
def decFinish (neg : Bool) (mant scale : ℕ) (rest : List Char) : Option Frac :=
  match parseExpPart rest with
  | none => none
  | some e =>
    let signed : ℤ := if neg then -(mant : ℤ) else (mant : ℤ)
    match e with
    | Int.ofNat k => some ⟨signed * 10 ^ k, 10 ^ scale⟩
    | Int.negSucc k => some ⟨signed, 10 ^ (scale + (k + 1))⟩

/-- Exact value of a decimal literal, as a `Frac` with positive den:
models the grammar accepted by `strconv.ParseFloat` for plain decimals. -/
def parseDec (s : String) : Option Frac :=
  let (neg, cs0) := takeSign s.data
  let (ip, ic, cs1) := takeDigits cs0 0 0
  match cs1 with
  | '.' :: cs2 =>
    let (fp, fc, cs3) := takeDigits cs2 ip 0
    if ic + fc = 0 then none else decFinish neg fp fc cs3
  | _ => if ic = 0 then none else decFinish neg ip 0 cs1

/-- Model of `strconv.ParseFloat(s, 64)` as used by the source (the error is
discarded, and Go returns `0` together with the error on a syntax error):
the decimal value correctly rounded to float64, or `0`.  Faithful on plain
decimal literals and on strings Go also rejects; Go additionally accepts
`inf`/`nan` spellings, hexadecimal floats and digit-group underscores —
values with no exact rational — which this model maps to the error path, so
theorems whose truth depends on a price parsing require a successful
`parseDec` in their hypotheses rather than relying on the `0` fallback. -/
def goParseFloat (s : String) : Frac :=
  match parseDec s with
  | some v => floatRound v
  | none => ⟨0, 1⟩

/-- Number of days in a month of the proleptic Gregorian calendar used by
Go's time package. -/
def daysInMonth (y m : ℕ) : ℕ :=
  if m = 2 then
    if y % 4 = 0 && (y % 100 ≠ 0 || y % 400 = 0) then 29 else 28
  else if m = 4 || m = 6 || m = 9 || m = 11 then 30
  else 31

/-- Consume exactly `k` digits, returning their value and the rest. -/
def takeFixedDigits : ℕ → List Char → Option (ℕ × List Char)
  | 0, cs => some (0, cs)
  | k + 1, c :: cs =>
    if isDigit c then
      match takeFixedDigits k cs with
      | some (v, rest) => some ((c.toNat - 48) * 10 ^ k + v, rest)
      | none => none
    else none
  | _ + 1, [] => none

/-- Model of `time.Parse("2006-01-02", s)`: four year digits, two month
digits, two day digits, with literal dashes; month and day ranges are
validated (Go rejects out-of-range months and days, including Feb 29 in
non-leap years).  Returns (year, month, day). -/
def parseDateYMD (s : String) : Option (ℕ × ℕ × ℕ) :=
  match takeFixedDigits 4 s.data with
  | none => none
  | some (y, r1) =>
    match r1 with
    | '-' :: r2 =>
      match takeFixedDigits 2 r2 with
      | none => none
      | some (mo, r3) =>
        match r3 with
        | '-' :: r4 =>
          match takeFixedDigits 2 r4 with
          | none => none
          | some (d, r5) =>
            if r5 = [] && 1 ≤ mo && mo ≤ 12 && 1 ≤ d && d ≤ daysInMonth y mo
            then some (y, mo, d) else none
        | _ => none
    | _ => none

/-- Day-of-month seen by the source after `time.Parse("2006-01-02", ...)`:
the parsed day on success, and `1` on failure because the Go zero `time.Time`
(January 1 of year 1) has `Day() = 1`. -/
def goParseDateDay (s : String) : ℕ :=
  match parseDateYMD s with
  | some (_, _, d) => d
  | none => 1

/-- Model of `time.Parse("15:04", s)`: one or two hour digits (Go's "15"
accepts an unpadded hour), a colon, exactly two minute digits; hour < 24 and
minute < 60 are validated.  Returns (hour, minute). -/
def parseTimeHM (s : String) : Option (ℕ × ℕ) :=
  let (h, hc, r1) := takeDigits s.data 0 0
  if hc = 0 || 2 < hc then none
  else
    match r1 with
    | ':' :: r2 =>
      match takeFixedDigits 2 r2 with
      | none => none
      | some (m, r3) =>
        if r3 = [] && h ≤ 23 && m ≤ 59 then some (h, m) else none
    | _ => none

/-- Minute count used for the time-window comparisons, measured from
00:00 of January 1 of year 0 (where `time.Parse("15:04", ...)` places a
successfully parsed time).  On failure the source compares the zero
`time.Time`, January 1 of year 1, which lies `366 * 1440 = 527040` minutes
later (year 0 is a 366-day leap year in Go's proleptic calendar). -/
def goTimeMinutes (s : String) : ℕ :=
  match parseTimeHM s with
  | some (h, m) => 60 * h + m
  | none => 527040

/-! ## Data model and rule engine (src/main.go lines 16-30, 77-120) -/

/-- Receipt item (src/main.go lines 26-30). -/
structure ReceiptItem where
  ShortDescription : String
  Price : String
  deriving DecidableEq, Repr

/-- Receipt (src/main.go lines 16-24). -/
structure Receipt where
  ID : String := ""
  Retailer : String := ""
  PurchaseDate : String := ""
  PurchaseTime : String := ""
  Items : List ReceiptItem := []
  Total : String := ""
  deriving DecidableEq, Repr

/-- Rule 1 (line 81): `points += len(receipt.Retailer)` — Go `len` of a
string is its UTF-8 byte length. -/
def rule1 (r : Receipt) : ℤ := (r.Retailer.utf8ByteSize : ℤ)

/-- The float64 value `total` (line 84): `strconv.ParseFloat(receipt.Total, 64)`
with the error discarded. -/
def goTotal (r : Receipt) : Frac := goParseFloat r.Total

/-- Rule 2 (lines 85-87): 50 points if `total == float64(int(total))`. -/
def rule2 (r : Receipt) : ℤ :=
  if fracEq (goTotal r) (floatRound ⟨goInt (goTotal r), 1⟩) then 50 else 0

/-- Rule 3 (lines 90-93): `totalCents := total * 100` (float64 product),
25 points if `int(totalCents) % 25 == 0`. -/
def rule3 (r : Receipt) : ℤ :=
  if goMod (goInt (floatRound (fmul (goTotal r) ⟨100, 1⟩))) 25 = 0 then 25 else 0

/-- Rule 4 (line 96): `points += len(receipt.Items) / 2 * 5`. -/
def rule4 (r : Receipt) : ℤ := ((r.Items.length / 2 * 5 : ℕ) : ℤ)

/-- The float64 constant `0.2` of line 103. -/
def fl02 : Frac := floatRound ⟨1, 5⟩

/-- Rule 5 body (lines 99-105): for an item whose description byte length is
a multiple of 3, `int(price * 0.2)` — a float64 product truncated toward
zero. -/
def rule5Item (it : ReceiptItem) : ℤ :=
  if it.ShortDescription.utf8ByteSize % 3 = 0 then
    goInt (floatRound (fmul (goParseFloat it.Price) fl02))
  else 0

/-- Rule 5 (lines 99-105): sum of the per-item contributions. -/
def rule5 (r : Receipt) : ℤ := (r.Items.map rule5Item).sum

/-- Rule 6 (lines 108-111): 6 points if `purchaseDate.Day() % 2 != 0`;
a failed parse leaves the zero `time.Time`, whose day is 1. -/
def rule6 (r : Receipt) : ℤ :=
  if goParseDateDay r.PurchaseDate % 2 ≠ 0 then 6 else 0

/-- Rule 7 (lines 114-117): 10 points if the parsed time is `After` 14:00 and
`Before` 16:00 of January 1 of year 0 (840 and 960 minutes). -/
def rule7 (r : Receipt) : ℤ :=
  if 840 < goTimeMinutes r.PurchaseTime ∧ goTimeMinutes r.PurchaseTime < 960
  then 10 else 0

/-- The rule engine `calculatePoints` (lines 77-120): the sum of the seven
sequentially accumulated rule contributions. -/
def calculatePoints (r : Receipt) : ℤ :=
  rule1 r + rule2 r + rule3 r + rule4 r + rule5 r + rule6 r + rule7 r

/-! ## Store and endpoints (src/main.go lines 32-74) -/

/-- The in-memory store `receipts map[string]Receipt`, modelled as an
association list where an insert conses and a lookup takes the first match
(last write wins, as for Go map assignment). -/
def Store := List (String × Receipt)

/-- ProcessReceiptsEndpoint (lines 35-55), after a successful decode: the
freshly generated identifier (`uuid.New().String()`, supplied here as the
`newId` argument) is written into the receipt's `ID` field, the receipt is
stored under it, and the identifier is returned. -/
def ProcessReceiptsEndpoint (store : Store) (newId : String) (r : Receipt) :
    String × Store :=
  (newId, (newId, { r with ID := newId }) :: store)

/-- GetPointsEndpoint (lines 58-74): look the receipt up by id; on a miss
respond "Receipt not found" (`none`) without computing any points; on a hit
respond with `calculatePoints`.  The store is returned unchanged: the
handler only reads it. -/
def GetPointsEndpoint (store : Store) (id : String) : Option ℤ × Store :=
  match List.lookup id store with
  | none => (none, store)
  | some r => (some (calculatePoints r), store)

/-- Submit a batch of (generated id, receipt) pairs in order through
`ProcessReceiptsEndpoint`, starting from the given store. -/
def submitAll (store : Store) : List (String × Receipt) → Store
  | [] => store
  | (id, r) :: rest => submitAll (ProcessReceiptsEndpoint store id r).2 rest

/-! ## Spec-side definitions

These two definitions follow the specification's words, not the source; they
exist to be compared with the source-derived definitions above. -/

/-- Modelled from the spec: "the total, converted to integer cents by
multiplying by 100 and rounding to the nearest integer", applied to the
exact decimal value of the total. -/
def specRoundedCents (v : Frac) : ℤ :=
  Int.fdiv (2 * (v.num * 100) + (v.den : ℤ)) (2 * (v.den : ℤ))

/-- Modelled from the spec: "add ceil(price * 0.2)", the exact product of the
decimal price with 1/5 rounded up to the next integer. -/
def specCeilFifth (v : Frac) : ℤ :=
  -(Int.fdiv (-v.num) (5 * (v.den : ℤ)))

/-! ## Infrastructure lemmas -/

theorem bitLenAux_bounds : ∀ (f n : ℕ), n ≤ f →
    n < 2 ^ bitLenAux f n ∧ 2 ^ bitLenAux f n ≤ 2 * n + 1 := by
  intro f
  induction f with
  | zero =>
    intro n hn
    interval_cases n
    exact ⟨Nat.zero_lt_one, le_refl 1⟩
  | succ f ih =>
    intro n hn
    match n with
    | 0 =>
      have h0 : bitLenAux (f + 1) 0 = 0 := rfl
      rw [h0]
      exact ⟨Nat.zero_lt_one, by omega⟩
    | n + 1 =>
      have hhalf : (n + 1) / 2 ≤ f := by omega
      have hIH := ih ((n + 1) / 2) hhalf
      have hcalc : bitLenAux (f + 1) (n + 1) = bitLenAux f ((n + 1) / 2) + 1 := rfl
      rw [hcalc]
      set K := bitLenAux f ((n + 1) / 2) with hK
      have hpow : 2 ^ (K + 1) = 2 * 2 ^ K := by ring
      have hdiv1 : 2 * ((n + 1) / 2) ≤ n + 1 := by omega
      have hdiv2 : n + 1 ≤ 2 * ((n + 1) / 2) + 1 := by omega
      constructor
      · omega
      · rw [hpow]
        rcases Nat.eq_zero_or_pos K with hK0 | hKpos
        · rw [hK0]; omega
        · obtain ⟨j, hj⟩ : ∃ j, K = j + 1 := ⟨K - 1, by omega⟩
          have heven : 2 ^ K = 2 * 2 ^ j := by rw [hj]; ring
          omega

theorem bitLen_gt (n : ℕ) : n < 2 ^ bitLen n :=
  (bitLenAux_bounds n n (le_refl n)).1

theorem bitLen_le (n : ℕ) : 2 ^ bitLen n ≤ 2 * n + 1 :=
  (bitLenAux_bounds n n (le_refl n)).2

theorem bitLen_pos {n : ℕ} (h : 1 ≤ n) : 1 ≤ bitLen n := by
  by_contra hc
  have h0 : bitLen n = 0 := by omega
  have := bitLen_gt n
  rw [h0] at this
  omega

theorem bitLen_lower {n : ℕ} (h : 1 ≤ n) : 2 ^ (bitLen n - 1) ≤ n := by
  have h1 := bitLen_pos h
  have h2 := bitLen_le n
  obtain ⟨j, hj⟩ : ∃ j, bitLen n = j + 1 := ⟨bitLen n - 1, by omega⟩
  have h4 : 2 ^ bitLen n = 2 * 2 ^ j := by rw [hj]; ring
  have h5 : bitLen n - 1 = j := by omega
  rw [h5]
  omega

theorem toQ_mul2z (q : Frac) (k : ℤ) : toQ (mul2z q k) = toQ q * (2 : ℚ) ^ k := by
  match k with
  | Int.ofNat n =>
    show toQ ⟨q.num * 2 ^ n, q.den⟩ = toQ q * (2 : ℚ) ^ (Int.ofNat n)
    rw [toQ, toQ, show (Int.ofNat n) = (n : ℤ) from rfl, zpow_natCast]
    push_cast
    rw [mul_div_right_comm]
  | Int.negSucc n =>
    show toQ ⟨q.num, q.den * 2 ^ (n + 1)⟩ = toQ q * (2 : ℚ) ^ (Int.negSucc n)
    rw [toQ, toQ, zpow_negSucc]
    push_cast
    rw [div_mul_eq_div_div, div_eq_mul_inv (_ / _)]

theorem toQ_pow2f (k : ℤ) : toQ (pow2f k) = (2 : ℚ) ^ k := by
  rw [pow2f, toQ_mul2z]
  show toQ ⟨1, 1⟩ * _ = _
  rw [toQ]
  norm_num

theorem toQ_fmul (a b : Frac) : toQ (fmul a b) = toQ a * toQ b := by
  show toQ ⟨a.num * b.num, a.den * b.den⟩ = _
  rw [toQ, toQ, toQ]
  push_cast
  rw [div_mul_div_comm]

theorem toQ_fneg (a : Frac) : toQ (fneg a) = -toQ a := by
  show toQ ⟨-a.num, a.den⟩ = _
  rw [toQ, toQ]
  push_cast
  rw [neg_div]

theorem toQ_int (c : ℤ) : toQ ⟨c, 1⟩ = (c : ℚ) := by
  rw [toQ]; norm_num

theorem mul2z_den_pos {q : Frac} (hd : 0 < q.den) (k : ℤ) : 0 < (mul2z q k).den := by
  match k with
  | Int.ofNat n => exact hd
  | Int.negSucc n => exact Nat.mul_pos hd (Nat.pos_pow_of_pos _ (by norm_num))

theorem fracLt_iff {a b : Frac} (ha : 0 < a.den) (hb : 0 < b.den) :
    fracLt a b = true ↔ toQ a < toQ b := by
  rw [fracLt, toQ, toQ, div_lt_div_iff₀ (by exact_mod_cast ha) (by exact_mod_cast hb)]
  rw [decide_eq_true_iff]
  constructor
  · intro h; exact_mod_cast h
  · intro h; exact_mod_cast h

theorem fracEq_iff {a b : Frac} (ha : 0 < a.den) (hb : 0 < b.den) :
    fracEq a b = true ↔ toQ a = toQ b := by
  rw [fracEq, toQ, toQ,
    div_eq_div_iff (by positivity) (by positivity : (b.den : ℚ) ≠ 0)]
  rw [decide_eq_true_iff]
  constructor
  · intro h; exact_mod_cast h
  · intro h; exact_mod_cast h


theorem rndNE_int {m : Frac} (hd : 0 < m.den) {c : ℤ} (h : m.num = c * (m.den : ℤ)) :
    rndNE m = c := by
  have hdz : (m.den : ℤ) ≠ 0 := by exact_mod_cast hd.ne'
  rw [rndNE]
  have hf : Int.fdiv m.num m.den = c := by
    rw [h, Int.mul_fdiv_cancel _ hdz]
  simp only [hf]
  have hr : 2 * (m.num - c * (m.den : ℤ)) = 0 := by rw [h]; ring
  rw [hr]
  simp only [if_pos (by exact_mod_cast hd : (0 : ℤ) < (m.den : ℤ))]

theorem toQ_num_pos {q : Frac} (hd : 0 < q.den) (hn : 0 < q.num) : 0 < toQ q := by
  rw [toQ]
  apply div_pos
  · exact_mod_cast hn
  · exact_mod_cast hd

theorem ratBitExp_bounds {q : Frac} (hn : 0 < q.num) (hd : 0 < q.den) :
    (2 : ℚ) ^ (ratBitExp q - 1) ≤ toQ q ∧ toQ q < (2 : ℚ) ^ ratBitExp q := by
  have h2ne : (2 : ℚ) ≠ 0 := by norm_num
  set n := q.num.natAbs with hnn
  have hq_eq : (q.num : ℚ) = (n : ℚ) := by
    rw [hnn, Int.cast_natAbs, abs_of_nonneg hn.le]
  have hn1 : 1 ≤ n := by rw [hnn]; omega
  have hd1 : 1 ≤ q.den := hd
  set bn := bitLen n with hbn
  set bd := bitLen q.den with hbd
  have hnu : (n : ℚ) < (2 : ℚ) ^ (bn : ℤ) := by
    rw [zpow_natCast]
    exact_mod_cast bitLen_gt n
  have hnl : (2 : ℚ) ^ ((bn : ℤ) - 1) ≤ (n : ℚ) := by
    have hp := bitLen_pos hn1
    have hc : ((bn - 1 : ℕ) : ℤ) = (bn : ℤ) - 1 := by omega
    rw [← hc, zpow_natCast]
    exact_mod_cast bitLen_lower hn1
  have hdu : ((q.den : ℚ)) < (2 : ℚ) ^ (bd : ℤ) := by
    rw [zpow_natCast]
    exact_mod_cast bitLen_gt q.den
  have hdl : (2 : ℚ) ^ ((bd : ℤ) - 1) ≤ (q.den : ℚ) := by
    have hp := bitLen_pos hd1
    have hc : ((bd - 1 : ℕ) : ℤ) = (bd : ℤ) - 1 := by omega
    rw [← hc, zpow_natCast]
    exact_mod_cast bitLen_lower hd1
  have hdpos : (0 : ℚ) < (q.den : ℚ) := by exact_mod_cast hd
  set b : ℤ := (bn : ℤ) - (bd : ℤ) with hb
  have htoq : toQ q = (n : ℚ) / (q.den : ℚ) := by rw [toQ, hq_eq]
  have hqu : toQ q < (2 : ℚ) ^ (b + 1) := by
    rw [htoq, div_lt_iff₀ hdpos]
    have hsplit : (2 : ℚ) ^ (bn : ℤ) = (2 : ℚ) ^ (b + 1) * (2 : ℚ) ^ ((bd : ℤ) - 1) := by
      rw [← zpow_add₀ h2ne]
      congr 1
      omega
    have hstep : (2 : ℚ) ^ (b + 1) * (2 : ℚ) ^ ((bd : ℤ) - 1) ≤ (2 : ℚ) ^ (b + 1) * (q.den : ℚ) :=
      mul_le_mul_of_nonneg_left hdl (by positivity)
    calc (n : ℚ) < (2 : ℚ) ^ (bn : ℤ) := hnu
    _ ≤ (2 : ℚ) ^ (b + 1) * (q.den : ℚ) := by rw [hsplit]; exact hstep
  have hql : (2 : ℚ) ^ (b - 1) < toQ q := by
    rw [htoq, lt_div_iff₀ hdpos]
    have hsplit : (2 : ℚ) ^ (b - 1) * (2 : ℚ) ^ (bd : ℤ) = (2 : ℚ) ^ ((bn : ℤ) - 1) := by
      rw [← zpow_add₀ h2ne]
      congr 1
      omega
    have hstep : (2 : ℚ) ^ (b - 1) * (q.den : ℚ) < (2 : ℚ) ^ (b - 1) * (2 : ℚ) ^ (bd : ℤ) :=
      mul_lt_mul_of_pos_left hdu (by positivity)
    calc (2 : ℚ) ^ (b - 1) * (q.den : ℚ)
        < (2 : ℚ) ^ ((bn : ℤ) - 1) := by rw [← hsplit]; exact hstep
    _ ≤ (n : ℚ) := hnl
  have hden_pow : 0 < (pow2f b).den := mul2z_den_pos Nat.one_pos b
  have hlt_iff : fracLt q (pow2f b) = true ↔ toQ q < (2 : ℚ) ^ b := by
    rw [fracLt_iff hd hden_pow, toQ_pow2f]
  rw [ratBitExp]
  simp only [← hnn, ← hbn, ← hbd, ← hb]
  by_cases hcase : fracLt q (pow2f b) = true
  · rw [if_pos hcase]
    exact ⟨hql.le, hlt_iff.mp hcase⟩
  · rw [if_neg hcase]
    have hge : (2 : ℚ) ^ b ≤ toQ q := by
      by_contra hcon
      push_neg at hcon
      exact hcase (hlt_iff.mpr hcon)
    have hshift : b + 1 - 1 = b := by omega
    rw [hshift]
    exact ⟨hge, hqu⟩

theorem floatRoundPos_den_pos (q : Frac) : 0 < (floatRoundPos q).den :=
  mul2z_den_pos Nat.one_pos _

theorem floatRound_den_pos (q : Frac) : 0 < (floatRound q).den := by
  rw [floatRound]
  split
  · exact Nat.one_pos
  · split
    · exact floatRoundPos_den_pos q
    · exact floatRoundPos_den_pos (fneg q)

theorem toQ_pos_num {f : Frac} (hd : 0 < f.den) (h : 0 < toQ f) : 0 < f.num := by
  by_contra hc
  push_neg at hc
  have : toQ f ≤ 0 := by
    rw [toQ]
    apply div_nonpos_of_nonpos_of_nonneg
    · exact_mod_cast hc
    · positivity
  exact absurd h (not_lt.mpr this)

theorem toQ_eq_zero_num {f : Frac} (hd : 0 < f.den) (h : toQ f = 0) : f.num = 0 := by
  rw [toQ, div_eq_zero_iff] at h
  rcases h with h | h
  · exact_mod_cast h
  · exfalso
    have : (f.den : ℚ) ≠ 0 := by positivity
    exact this h

theorem toQ_eq_int {f : Frac} (hd : 0 < f.den) {c : ℤ} (h : toQ f = (c : ℚ)) :
    f.num = c * (f.den : ℤ) := by
  rw [toQ, div_eq_iff (by positivity : (f.den : ℚ) ≠ 0)] at h
  exact_mod_cast h

theorem floatRound_exact {q : Frac} (hd : 0 < q.den) (a k : ℕ) (ha : a < 2 ^ 53)
    (hv : toQ q = (a : ℚ) * (2 : ℚ) ^ (-(k : ℤ))) : toQ (floatRound q) = toQ q := by
  have h2ne : (2 : ℚ) ≠ 0 := by norm_num
  rcases Nat.eq_zero_or_pos a with ha0 | hapos
  · -- value zero: the zero branch of floatRound is taken
    have hq0 : toQ q = 0 := by rw [hv, ha0]; norm_num
    have hnum0 : q.num = 0 := toQ_eq_zero_num hd hq0
    rw [floatRound, if_pos hnum0, hq0, toQ]
    norm_num
  · have hqpos : 0 < toQ q := by
      rw [hv]
      have h1 : (0 : ℚ) < (a : ℚ) := by exact_mod_cast hapos
      positivity
    have hnpos : 0 < q.num := toQ_pos_num hd hqpos
    obtain ⟨hlb, hub⟩ := ratBitExp_bounds hnpos hd
    set E := ratBitExp q with hE
    -- E ≤ 53 - k
    have ha53 : (a : ℚ) < (2 : ℚ) ^ (53 : ℤ) := by
      rw [show ((53 : ℤ)) = ((53 : ℕ) : ℤ) from rfl, zpow_natCast]
      exact_mod_cast ha
    have hq_ub : toQ q < (2 : ℚ) ^ ((53 : ℤ) - k) := by
      rw [hv]
      calc (a : ℚ) * (2 : ℚ) ^ (-(k : ℤ))
          < (2 : ℚ) ^ (53 : ℤ) * (2 : ℚ) ^ (-(k : ℤ)) := by
            exact mul_lt_mul_of_pos_right ha53 (by positivity)
      _ = (2 : ℚ) ^ ((53 : ℤ) - k) := by
            rw [← zpow_add₀ h2ne]
            congr 1
    have hEk : E ≤ 53 - (k : ℤ) := by
      have hlt : (2 : ℚ) ^ (E - 1) < (2 : ℚ) ^ ((53 : ℤ) - k) := lt_of_le_of_lt hlb hq_ub
      have := (zpow_lt_zpow_iff_right₀ (by norm_num : (1 : ℚ) < 2)).mp hlt
      omega
    set j : ℤ := 53 - E - k with hj
    have hjnn : 0 ≤ j := by omega
    set jn : ℕ := j.toNat with hjn
    have hjcast : (jn : ℤ) = j := Int.toNat_of_nonneg hjnn
    set m : Frac := mul2z q (-(E - 53)) with hm
    have hmden : 0 < m.den := mul2z_den_pos hd _
    set c : ℤ := (a : ℤ) * 2 ^ jn with hc
    have hcq : (c : ℚ) = (a : ℚ) * (2 : ℚ) ^ (j : ℤ) := by
      rw [hc, ← hjcast]
      push_cast [zpow_natCast]
      ring
    have hmval : toQ m = (c : ℚ) := by
      rw [hm, toQ_mul2z, hv, hcq]
      rw [mul_assoc, ← zpow_add₀ h2ne]
      congr 2
      omega
    have hmnum : m.num = c * (m.den : ℤ) := toQ_eq_int hmden hmval
    have hrnd : rndNE m = c := rndNE_int hmden hmnum
    rw [floatRound, if_neg hnpos.ne', if_pos hnpos]
    have hfr : floatRoundPos q = mul2z ⟨rndNE m, 1⟩ (E - 53) := by
      rw [floatRoundPos]
    rw [hfr, hrnd, toQ_mul2z, toQ_int, hcq, hv]
    rw [mul_assoc, ← zpow_add₀ h2ne]
    congr 2
    omega

theorem decFinish_den_pos {neg : Bool} {mant scale : ℕ} {rest : List Char} {v : Frac}
    (h : decFinish neg mant scale rest = some v) : 0 < v.den := by
  rw [decFinish] at h
  rcases hexp : parseExpPart rest with _ | e
  · rw [hexp] at h
    exact absurd h (by simp)
  · rw [hexp] at h
    match e with
    | Int.ofNat k =>
      simp only [Option.some.injEq] at h
      rw [← h]
      positivity
    | Int.negSucc k =>
      simp only [Option.some.injEq] at h
      rw [← h]
      positivity

theorem parseDec_den_pos {s : String} {v : Frac} (h : parseDec s = some v) : 0 < v.den := by
  rw [parseDec] at h
  rcases hts : takeSign s.data with ⟨neg, cs0⟩
  rw [hts] at h
  dsimp only at h
  rcases htd : takeDigits cs0 0 0 with ⟨ip, ic, cs1⟩
  rw [htd] at h
  dsimp only at h
  split at h
  next cs2 =>
    rcases htd2 : takeDigits cs2 ip 0 with ⟨fp, fc, cs3⟩
    rw [htd2] at h
    dsimp only at h
    split at h
    · exact absurd h (by simp)
    · exact decFinish_den_pos h
  next =>
    split at h
    · exact absurd h (by simp)
    · exact decFinish_den_pos h

theorem goInt_int_value {f : Frac} (hd : 0 < f.den) {c : ℤ} (h : toQ f = (c : ℚ)) :
    goInt f = c := by
  have hnum := toQ_eq_int hd h
  rw [goInt, hnum, Int.mul_tdiv_cancel _ (by exact_mod_cast hd.ne')]

theorem utf8Go_ascii : ∀ (l : List Char), (∀ c ∈ l, c.utf8Size = 1) →
    String.utf8ByteSize.go l = l.length := by
  intro l
  induction l with
  | nil => intro _; rfl
  | cons c cs ih =>
    intro h
    have hc : c.utf8Size = 1 := h c (List.mem_cons_self c cs)
    have hcs : ∀ x ∈ cs, x.utf8Size = 1 := fun x hx => h x (List.mem_cons_of_mem c hx)
    show String.utf8ByteSize.go cs + c.utf8Size = cs.length + 1
    rw [ih hcs, hc]

theorem utf8ByteSize_ascii (s : String) (h : ∀ c ∈ s.data, c.utf8Size = 1) :
    s.utf8ByteSize = s.length := by
  cases s with
  | mk l => exact utf8Go_ascii l h

theorem calculatePoints_setID (r : Receipt) (id : String) :
    calculatePoints { r with ID := id } = calculatePoints r := rfl

theorem lookup_submitAll_of_not_mem (rest : List (String × Receipt)) :
    ∀ (s : Store) (id : String), id ∉ rest.map Prod.fst →
    List.lookup id (submitAll s rest) = List.lookup id s := by
  induction rest with
  | nil => intro s id _; rfl
  | cons p ps ih =>
    intro s id hid
    rcases p with ⟨pid, pr⟩
    rw [List.map_cons, List.mem_cons] at hid
    push_neg at hid
    show List.lookup id (submitAll ((pid, { pr with ID := pid }) :: s) ps) = _
    rw [ih _ id hid.2]
    have hne : (id == pid) = false := beq_eq_false_iff_ne.mpr hid.1
    simp only [List.lookup, hne]

theorem lookup_submitAll_self :
    ∀ (pairs : List (String × Receipt)) (s : Store),
    (pairs.map Prod.fst).Nodup →
    ∀ p ∈ pairs, List.lookup p.1 (submitAll s pairs) = some { p.2 with ID := p.1 } := by
  intro pairs
  induction pairs with
  | nil =>
    intro s _ p hp
    exact absurd hp (List.not_mem_nil p)
  | cons q qs ih =>
    intro s hnd p hp
    rcases q with ⟨qid, qr⟩
    rw [List.map_cons, List.nodup_cons] at hnd
    rcases List.mem_cons.mp hp with hep | hmem
    · subst hep
      show List.lookup qid (submitAll ((qid, { qr with ID := qid }) :: s) qs) = _
      rw [lookup_submitAll_of_not_mem qs _ qid hnd.1]
      simp only [List.lookup, beq_self_eq_true]
    · exact ih _ hnd.2 p hmem

theorem getPoints_after_submitAll (pairs : List (String × Receipt))
    (hnd : (pairs.map Prod.fst).Nodup) :
    ∀ p ∈ pairs, GetPointsEndpoint (submitAll [] pairs) p.1 =
      (some (calculatePoints p.2), submitAll [] pairs) := by
  intro p hp
  rw [GetPointsEndpoint, lookup_submitAll_self pairs [] hnd p hp]
  dsimp only
  rw [calculatePoints_setID]

/-! ## Claim theorems -/

set_option maxRecDepth 100000

/-- Receipt exercising rule 5: description length 3, price 6.49. -/
def c1Receipt : Receipt := { Items := [{ ShortDescription := "abc", Price := "6.49" }] }

/-- C1: the claim (and the source's own comment on lines 98-104, "multiply the
price by 0.2 and round up to the nearest integer") requires
ceil(6.49 * 0.2) = 2 for an item whose description length is a multiple of 3,
but the code computes `int(price * 0.2)`, a truncating cast: the float64
product of 6.49 and 0.2 is about 1.298 and the item contributes 1 point,
not 2.  The exact decimal 6.49 parses to 649/100, whose spec-side ceiling
contribution is 2. -/
theorem claim_C1 :
    rule5 c1Receipt = 1 ∧
    parseDec "6.49" = some ⟨649, 100⟩ ∧
    specCeilFifth ⟨649, 100⟩ = 2 := by
  refine ⟨by decide, by decide, by decide⟩

/-- Receipt with an unparseable purchase date. -/
def c2Receipt : Receipt := { PurchaseDate := "not-a-date" }

/-- C2 counterexample: for a receipt whose purchaseDate does not parse, the
odd-day rule does not contribute 0 as claimed: `time.Parse` failure leaves
the zero `time.Time`, whose `Day()` is 1 (odd), so the rule contributes 6. -/
theorem claim_C2_counterexample :
    parseDateYMD c2Receipt.PurchaseDate = none ∧ rule6 c2Receipt ≠ 0 := by
  refine ⟨by decide, by decide⟩

/-- C2 (amended): for every receipt whose purchaseDate is not a valid
YYYY-MM-DD calendar value the odd-day rule contributes 6 (the Go zero time
has day 1, which is odd), not 0; an unparseable purchaseTime indeed never
earns the afternoon-window 10 points; `calculatePoints` is total, so Score
still returns an integer. -/
theorem claim_C2 :
    (∀ r : Receipt, parseDateYMD r.PurchaseDate = none → rule6 r = 6) ∧
    (∀ r : Receipt, parseTimeHM r.PurchaseTime = none → rule7 r = 0) := by
  constructor
  · intro r h
    rw [rule6, goParseDateDay, h]
    dsimp only
    norm_num
  · intro r h
    rw [rule7, goTimeMinutes, h]
    norm_num

/-- C2 witness: the amended statement applied at concrete malformed fields. -/
theorem claim_C2_witness :
    rule6 { PurchaseDate := "2022-99-99" } = 6 ∧ rule7 { PurchaseTime := "25:00" } = 0 :=
  ⟨claim_C2.1 _ (by decide), claim_C2.2 _ (by decide)⟩

/-- The end-to-end example receipt of the specification. -/
def targetReceipt : Receipt :=
  { Retailer := "Target", PurchaseDate := "2022-01-01", PurchaseTime := "13:01",
    Items := [{ ShortDescription := "Mountain Dew 12PK", Price := "6.49" }],
    Total := "6.49" }

/-- C4: the Target example receipt scores exactly 12: retailer length 6,
total 6.49 not round and 649 cents not a quarter multiple, one item (no pair
bonus), description length 17 not a multiple of 3, day 1 odd (+6),
time 13:01 outside the window. -/
theorem claim_C4 : calculatePoints targetReceipt = 12 := by decide

/-- Receipt whose total exhibits the truncation/rounding difference. -/
def c5Receipt : Receipt := { Total := "2.01" }

/-- C5 counterexample: the rule does not award 25 points exactly when the
total's rounded integer cents are divisible by 25.  Total "2.01" has exact
value 201/100 and rounded cents 201, which is not divisible by 25, yet the
code awards 25: the float64 product float64(2.01) * 100 is just below 201
and the truncating `int` cast yields 200, a multiple of 25. -/
theorem claim_C5_counterexample :
    parseDec c5Receipt.Total = some ⟨201, 100⟩ ∧
    goMod (specRoundedCents ⟨201, 100⟩) 25 ≠ 0 ∧
    rule3 c5Receipt = 25 := by
  refine ⟨by decide, by decide, by decide⟩

/-- C5 (amended): the code checks divisibility of the truncated (not
rounded) float64 cent value, which can disagree with the rounded-cents
criterion (see the counterexample); on exact quarter multiples the float64
computation is exact, so every total whose decimal value is a/4 dollars
(a < 2^48) is awarded the 25 points — no floating-point false negatives —
and the spec's examples hold: "9.25" earns +25 and "9.26" earns 0. -/
theorem claim_C5 :
    (∀ (r : Receipt) (v : Frac) (a : ℕ), parseDec r.Total = some v →
      a < 2 ^ 48 → 4 * v.num = (a : ℤ) * (v.den : ℤ) → rule3 r = 25) ∧
    rule3 { Total := "9.25" } = 25 ∧ rule3 { Total := "9.26" } = 0 := by
  refine ⟨?_, by decide, by decide⟩
  intro r v a hp ha heq
  have hd : 0 < v.den := parseDec_den_pos hp
  have hdq : ((v.den : ℚ)) ≠ 0 := by positivity
  have h2m2 : (2 : ℚ) ^ (-((2 : ℕ) : ℤ)) = 1 / 4 := by norm_num
  have hv : toQ v = (a : ℚ) * (2 : ℚ) ^ (-((2 : ℕ) : ℤ)) := by
    rw [toQ, h2m2, div_eq_iff hdq]
    have : (4 : ℚ) * (v.num : ℚ) = (a : ℚ) * (v.den : ℚ) := by exact_mod_cast heq
    linarith
  have ha53 : a < 2 ^ 53 := by
    have hx : (2 : ℕ) ^ 53 = 32 * 2 ^ 48 := by norm_num
    omega
  have hfrv : toQ (floatRound v) = toQ v := floatRound_exact hd a 2 ha53 hv
  set w : Frac := fmul (floatRound v) ⟨100, 1⟩ with hw
  have hwden : 0 < w.den := by
    rw [hw]
    exact Nat.mul_pos (floatRound_den_pos v) Nat.one_pos
  have hv2 : toQ w = ((25 * a : ℕ) : ℚ) * (2 : ℚ) ^ (-((0 : ℕ) : ℤ)) := by
    rw [hw, toQ_fmul, hfrv, hv, toQ_int, h2m2]
    push_cast
    norm_num
    ring
  have hb2 : 25 * a < 2 ^ 53 := by
    have hx : (2 : ℕ) ^ 53 = 32 * 2 ^ 48 := by norm_num
    omega
  have hfrw : toQ (floatRound w) = toQ w := floatRound_exact hwden (25 * a) 0 hb2 hv2
  have hwint : toQ (floatRound w) = (((25 * a : ℕ) : ℤ) : ℚ) := by
    rw [hfrw, hv2]
    push_cast
    norm_num
  have hgi : goInt (floatRound w) = ((25 * a : ℕ) : ℤ) :=
    goInt_int_value (floatRound_den_pos w) hwint
  have hgt : goTotal r = floatRound v := by
    rw [goTotal, goParseFloat, hp]
  rw [rule3, hgt, ← hw, hgi]
  have hcast : ((25 * a : ℕ) : ℤ) = 25 * (a : ℤ) := by push_cast; ring
  rw [hcast, goMod, Int.mul_tmod_right]
  norm_num

/-- C5 witness: the universal quarter-multiple part applied at total "9.25"
(value 925/100 = 37/4 dollars, a = 37). -/
theorem claim_C5_witness : rule3 { Total := "9.25" } = 25 :=
  claim_C5.1 { Total := "9.25" } ⟨925, 100⟩ 37 (by decide) (by decide) (by decide)

/-- C6: for every receipt whose purchaseTime parses as h:m, the
afternoon-window rule awards 10 exactly when the time is strictly after
14:00 (840 minutes) and strictly before 16:00 (960 minutes), both bounds
exclusive; in particular "14:01" contributes 10 while "14:00" and "16:00"
contribute 0. -/
theorem claim_C6 :
    (∀ (r : Receipt) (h m : ℕ), parseTimeHM r.PurchaseTime = some (h, m) →
      (rule7 r = 10 ↔ (840 < 60 * h + m ∧ 60 * h + m < 960))) ∧
    rule7 { PurchaseTime := "14:01" } = 10 ∧
    rule7 { PurchaseTime := "14:00" } = 0 ∧
    rule7 { PurchaseTime := "16:00" } = 0 := by
  refine ⟨?_, by decide, by decide, by decide⟩
  intro r h m hp
  rw [rule7, goTimeMinutes, hp]
  split
  next hc => simpa using hc
  next hc => simpa using hc

/-- C6 witness: the boundary characterization applied at a parsed time. -/
theorem claim_C6_witness :
    rule7 { PurchaseTime := "15:30" } = 10 ↔ (840 < 60 * 15 + 30 ∧ 60 * 15 + 30 < 960) :=
  claim_C6.1 { PurchaseTime := "15:30" } 15 30 (by decide)

/-- Receipt with a two-byte UTF-8 retailer character. -/
def c7Receipt : Receipt := { Retailer := "é" }

/-- C7 counterexample: rule 1 does not award one point per character: Go's
`len` on a string counts UTF-8 bytes, and for the one-character retailer
"é" the rule contributes 2, not 1. -/
theorem claim_C7_counterexample :
    rule1 c7Receipt = 2 ∧ c7Receipt.Retailer.length = 1 := by
  refine ⟨by decide, by decide⟩

/-- C7 (amended): rule 1 awards one point per UTF-8 byte of the retailer,
with no alphanumeric filtering — spaces and punctuation count — which equals
the character count exactly when every character is a single-byte (ASCII)
character. -/
theorem claim_C7 (r : Receipt) (h : ∀ c ∈ r.Retailer.data, c.utf8Size = 1) :
    rule1 r = (r.Retailer.length : ℤ) := by
  rw [rule1, utf8ByteSize_ascii r.Retailer h]

/-- C7 witness: an all-ASCII retailer, spaces and punctuation included. -/
theorem claim_C7_witness :
    rule1 { Retailer := "A&W  Store!" } = (("A&W  Store!" : String).length : ℤ) :=
  claim_C7 { Retailer := "A&W  Store!" } (by decide)

/-- C8: querying an identifier with no stored receipt returns "not found"
(`none`, never a zero score), and the lookup leaves the store unchanged. -/
theorem claim_C8 (s : Store) (id : String) (h : List.lookup id s = none) :
    GetPointsEndpoint s id = (none, s) := by
  rw [GetPointsEndpoint, h]

/-- C8 witness: a store holding one receipt, queried with an unknown id. -/
theorem claim_C8_witness :
    GetPointsEndpoint [("id-a", ({} : Receipt))] "id-b" = (none, [("id-a", ({} : Receipt))]) :=
  claim_C8 _ _ (by decide)

/-- C9: if the generated identifiers of a batch of submissions are pairwise
distinct (the uuid contract: the spec directs that collision probability be
treated as zero), then querying each returned identifier yields exactly the
score of the receipt submitted under it, never another's.  The stored copy
differs from the submission only in its `ID` field, which `calculatePoints`
ignores. -/
theorem claim_C9 (pairs : List (String × Receipt))
    (hnd : (pairs.map Prod.fst).Nodup) :
    ∀ p ∈ pairs, GetPointsEndpoint (submitAll [] pairs) p.1 =
      (some (calculatePoints p.2), submitAll [] pairs) :=
  getPoints_after_submitAll pairs hnd

/-- Two distinct receipts submitted under two distinct generated ids. -/
def demoPairs : List (String × Receipt) :=
  [("id-1", { Retailer := "Shop" }), ("id-2", {})]

/-- C9 witness: the round trip at a concrete two-receipt batch. -/
theorem claim_C9_witness :
    GetPointsEndpoint (submitAll [] demoPairs) "id-1" =
      (some (calculatePoints ({ Retailer := "Shop" } : Receipt)), submitAll [] demoPairs) :=
  claim_C9 demoPairs (by decide) ("id-1", { Retailer := "Shop" }) (by decide)

/-- The zero-value receipt: all fields empty, no items. -/
def zeroReceipt : Receipt := {}

/-- C10: the empty receipt scores the fixed positive constant 81: the
unparseable total is treated as 0, which is a round dollar amount (+50) and
a multiple of 25 cents (+25); in addition the unparseable empty date leaves
the zero time with odd day 1 (+6).  An empty receipt is never scored 0. -/
theorem claim_C10 :
    calculatePoints zeroReceipt = 81 ∧
    0 < calculatePoints zeroReceipt ∧
    rule2 zeroReceipt = 50 ∧
    rule3 zeroReceipt = 25 ∧
    parseDec zeroReceipt.Total = none := by
  refine ⟨by decide, by decide, by decide, by decide, by decide⟩
